import Mathlib

/-!
Shallow embedding of `src/emgdecompy/viz.py` (the EMGdecomPy visualization
module): the MUAP shape extractor `muap_dict` and the paginated facet-chart
renderer `muap_plot`, with theorems checking the module's specification.

Signal amplitudes are modelled over `ℚ` (exact arithmetic standing in for the
numpy floating-point values; every claim here is about index arithmetic and
structure, and the channel mean is the same expression on both sides).
A raw signal is a list of channels, each a list of samples; a firing-time
collection is one list of integer sample indices per motor unit.
-/

/-- Modelled from the spec: `flatten_signal` (imported from
`emgdecompy.preprocessing`, which is not part of this module) normalizes the
raw signal source into the 2-D channels × samples array.  The spec's claims
all quantify over that already-flattened array, so the model takes the 2-D
array itself and the normalization is the identity on it. -/
def flatten_signal (raw : List (List ℚ)) : List (List ℚ) := raw

/-- `raw.shape[1]`: the number of time samples of the (rectangular) 2-D
signal array. -/
def numSamples (raw : List (List ℚ)) : ℕ := (raw.headD []).length

/-- numpy integer-array indexing on an axis of length `T`: an index in
`[0, T)` is used directly, an index in `[-T, 0)` counts from the end of the
axis, and anything else raises `IndexError` (modelled as `none`). -/
def resolveIndex (T : ℕ) (idx : ℤ) : Option ℕ :=
  if 0 ≤ idx ∧ idx < (T : ℤ) then some idx.toNat
  else if -(T : ℤ) ≤ idx ∧ idx < 0 then some (idx + (T : ℤ)).toNat
  else none

/-- Resolve a whole gather-index array, as `raw[:, ptl]` does: any
out-of-range entry makes the whole gather raise `IndexError`. -/
def resolveAll (T : ℕ) : List ℤ → Option (List ℕ)
  | [] => some []
  | idx :: rest =>
    match resolveIndex T idx with
    | none => none
    | some s => (resolveAll T rest).map (fun ss => s :: ss)

/-- `raw[:, s].mean(axis=0)`: the mean over the channel axis of the signal
column at (already resolved) sample index `s`. -/
def chanMean (raw : List (List ℚ)) (s : ℕ) : ℚ :=
  (raw.map (fun ch => ch.getD s 0)).sum / (raw.length : ℚ)

/-- `np.arange(k - l, k + l)`: the row of `2*l` window indices written into
`ptl[j]` for the firing time `k`. -/
def windowIndices (k : ℤ) (l : ℕ) : List ℤ :=
  (List.range (2 * l)).map (fun o : ℕ => k - (l : ℤ) + (o : ℤ))

/-- numpy `squeeze` of a (per the data model, already 1-D) firing-time array:
the identity.  `muap_dict` assigns `pt[i] = pt[i].squeeze()` in place. -/
def squeeze (firings : List ℤ) : List ℤ := firings

/-- The per-motor-unit record `{"sample": ..., "signal": ..., "peak": ...}`
stored by `muap_dict`. -/
structure ShapeRecord where
  sample : List ℕ
  signal : List ℚ
  peak : List ℕ
deriving DecidableEq

/-- The loop body of `muap_dict` for one motor unit with (squeezed) firing
list `firings`:
`ptl` is the flattened array of per-event rows `np.arange(k - l, k + l)`;
`sample` is `np.tile(np.arange(l * 2), n)`;
`peak` is the flattened array of rows `np.full(l * 2, j)`;
`signal` is `raw[:, ptl].mean(axis=0)` — the subsequent
`.reshape(n, l * 2).flatten()` is the identity on the flat length-`n*2*l`
array.  `none` models the `IndexError` raised when some window index falls
outside `[-T, T)` for `T = raw.shape[1]`. -/
def muapUnit (raw : List (List ℚ)) (firings : List ℤ) (l : ℕ) :
    Option ShapeRecord :=
  let T := numSamples raw
  let ptl := firings.flatMap (fun k => windowIndices k l)
  match resolveAll T ptl with
  | none => none
  | some cols =>
    some
      { sample := List.flatten (List.replicate firings.length (List.range (2 * l)))
        signal := cols.map (chanMean raw)
        peak := List.flatten ((List.range firings.length).map
          (fun j => List.replicate (2 * l) j)) }

/-- The `for i in range(pt.shape[0])` loop of `muap_dict`, carried out with
explicit state passing for the in-place `pt[i] = pt[i].squeeze()`
assignments: returns the result (`Except.error` models a raised numpy
`IndexError`) together with the firing-time collection as the caller sees it
after the call; units after a raising one are left untouched. -/
def muapLoop (raw : List (List ℚ)) (l : ℕ) (i : ℕ) :
    List (List ℤ) →
      Except String (List (String × ShapeRecord)) × List (List ℤ)
  | [] => (Except.ok [], [])
  | firings :: rest =>
    let f := squeeze firings
    match muapUnit raw f l with
    | none => (Except.error "IndexError", f :: rest)
    | some r =>
      match muapLoop raw l (i + 1) rest with
      | (Except.ok entries, rest2) =>
          (Except.ok (("mu_" ++ toString i, r) :: entries), f :: rest2)
      | (Except.error e, rest2) => (Except.error e, f :: rest2)

/-- `muap_dict(raw, pt, l)` together with the observable mutation of the
caller's `pt` (the in-place `squeeze` of each processed unit). -/
def muap_dictMut (raw : List (List ℚ)) (pt : List (List ℤ)) (l : ℕ) :
    Except String (List (String × ShapeRecord)) × List (List ℤ) :=
  muapLoop (flatten_signal raw) l 0 pt

/-- `muap_dict(raw, pt, l)` from viz.py: flatten the raw signal, then build
one shape record per motor unit, keyed `"mu_<i>"` in unit order.  A numpy
`IndexError` aborts the whole call. -/
def muap_dict (raw : List (List ℚ)) (pt : List (List ℤ)) (l : ℕ) :
    Except String (List (String × ShapeRecord)) :=
  (muap_dictMut raw pt l).1

/-- The value `muap_plot` returns when it does not raise: one of its two
advisory strings, or the faceted chart.  The chart is modelled by the data it
is built from: the row slice `mu_df[row_index[0] : row_index[1]]` it plots,
the requested `page`, the computed `last_page` shown in the facet title, and
`count`; the altair visual styling is presentation, not behavior. -/
inductive PlotOutput where
  | message : String → PlotOutput
  | chart : ShapeRecord → ℕ → ℕ → ℕ → PlotOutput
deriving DecidableEq

/-- `mu_df[a : b]`: rows `[a, b)` of the three-column table. -/
def sliceRecord (r : ShapeRecord) (a b : ℕ) : ShapeRecord :=
  { sample := (r.sample.drop a).take (b - a)
    signal := (r.signal.drop a).take (b - a)
    peak := (r.peak.drop a).take (b - a) }

/-- `muap_plot(shape_dict, mu_index, page, count)` from viz.py; per its
docstring `page` is a positive number and `count` defaults to 12.  `lG` is
the module-level binding of the name `l` that the function body reads: in
the source no such binding exists (`l` is a free variable), which `lG = none`
models.  `Except.error` models a raised Python exception, in source-line
order: `KeyError` from `shape_dict[f"mu_{mu_index}"]`, `ValueError` from
`pd.DataFrame` on a ragged record, `NameError` from the `row_index` line
reading the unbound `l` — before any validation check — and the
`ZeroDivisionError` cases of the `last_page` line.  `len(mu_df)` is the
common column length, and `last_page` is
`len(mu_df) // (l * 2) // count + (147 % count > 0)` with the literal `147`. -/
def muap_plot (lG : Option ℕ) (shape_dict : List (String × ShapeRecord))
    (mu_index : ℕ) (page : ℕ) (count : ℕ) : Except String PlotOutput :=
  match List.lookup ("mu_" ++ toString mu_index) shape_dict with
  | none => Except.error "KeyError"
  | some r =>
    if ¬ (r.signal.length = r.sample.length ∧ r.peak.length = r.sample.length)
      then Except.error "ValueError"
    else
      match lG with
      | none => Except.error "NameError"
      | some l =>
        let rowLo := (page - 1) * (l * 2) * count
        let rowHi := (page - 1) * (l * 2) * count + (l * 2) * count
        if count > 12 then
          Except.ok (PlotOutput.message "Max plots per page is 12")
        else if l * 2 = 0 then Except.error "ZeroDivisionError"
        else if count = 0 then Except.error "ZeroDivisionError"
        else
          let last_page := r.sample.length / (l * 2) / count +
            (if 147 % count > 0 then 1 else 0)
          if page > last_page then
            Except.ok (PlotOutput.message
              ("Last page is page " ++ toString last_page ++ "."))
          else
            Except.ok
              (PlotOutput.chart (sliceRecord r rowLo rowHi) page last_page count)

/-- The default entry used when indexing the result list with `List.getD`. -/
def emptyEntry : String × ShapeRecord := ("", ⟨[], [], []⟩)

/-- A concrete one-channel raw signal with 4 samples, for witnesses. -/
def rawEx : List (List ℚ) := [[5, 6, 7, 8]]

/-- A concrete firing-time collection: one motor unit firing at samples 1
and 2, both windows inside the signal for `half_width = 1`. -/
def ptEx : List (List ℤ) := [[1, 2]]

/-- What `muap_dict rawEx ptEx 1` returns: windows `[0, 1]` and `[1, 2]`,
averaged across the single channel. -/
def entriesEx : List (String × ShapeRecord) :=
  [("mu_0",
    { sample := [0, 1, 0, 1]
      signal := [chanMean rawEx 0, chanMean rawEx 1, chanMean rawEx 1,
                 chanMean rawEx 2]
      peak := [0, 0, 1, 1] })]

/-- A concrete one-channel raw signal with 4 samples. -/
def rawEx2 : List (List ℚ) := [[10, 20, 30, 40]]

/-- One motor unit firing at sample 1: with `half_width = 2` the window
starts at the negative position `-1`. -/
def ptEx2 : List (List ℤ) := [[1]]

/-- A concrete well-formed shape table entry with 4 firing events and
`half_width = 1` (8 rows), used for the renderer claims. -/
def recEx8 : ShapeRecord :=
  { sample := [0, 1, 0, 1, 0, 1, 0, 1]
    signal := [1, 2, 3, 4, 5, 6, 7, 8]
    peak := [0, 0, 1, 1, 2, 2, 3, 3] }

/-! ### Lemmas about index resolution -/

theorem resolveAll_cons {T : ℕ} {idx : ℤ} {rest : List ℤ} :
    resolveAll T (idx :: rest) =
      match resolveIndex T idx with
      | none => none
      | some s => (resolveAll T rest).map (fun ss => s :: ss) := rfl

theorem resolveAll_length {T : ℕ} {xs : List ℤ} :
    ∀ {ys : List ℕ}, resolveAll T xs = some ys → ys.length = xs.length := by
  induction xs with
  | nil =>
    intro ys h
    simp only [resolveAll, Option.some.injEq] at h
    simp [← h]
  | cons idx rest ih =>
    intro ys h
    rw [resolveAll_cons] at h
    cases hri : resolveIndex T idx with
    | none => simp [hri] at h
    | some s =>
      cases hra : resolveAll T rest with
      | none => simp [hri, hra] at h
      | some ss =>
        simp only [hri, hra, Option.map_some', Option.some.injEq] at h
        simp [← h, ih hra]

theorem resolveAll_getD {T : ℕ} {xs : List ℤ} :
    ∀ {ys : List ℕ} {i : ℕ}, resolveAll T xs = some ys → i < xs.length →
      resolveIndex T (xs.getD i 0) = some (ys.getD i 0) := by
  induction xs with
  | nil => intro ys i _ hi; simp at hi
  | cons idx rest ih =>
    intro ys i h hi
    rw [resolveAll_cons] at h
    cases hri : resolveIndex T idx with
    | none => simp [hri] at h
    | some s =>
      cases hra : resolveAll T rest with
      | none => simp [hri, hra] at h
      | some ss =>
        simp only [hri, hra, Option.map_some', Option.some.injEq] at h
        subst h
        cases i with
        | zero => simpa using hri
        | succ i =>
          simp only [List.getD_cons_succ]
          exact ih hra (by simpa using hi)

theorem resolveAll_isSome {T : ℕ} {xs : List ℤ}
    (h : ∀ x ∈ xs, (resolveIndex T x).isSome) :
    ∃ ys, resolveAll T xs = some ys := by
  induction xs with
  | nil => exact ⟨[], rfl⟩
  | cons idx rest ih =>
    obtain ⟨s, hs⟩ := Option.isSome_iff_exists.mp (h idx (by simp))
    obtain ⟨ss, hss⟩ := ih (fun x hx => h x (by simp [hx]))
    exact ⟨s :: ss, by rw [resolveAll_cons]; simp [hs, hss]⟩

/-- A window index that lies inside `[0, T)` resolves to itself. -/
theorem resolveIndex_of_nonneg {T : ℕ} {idx : ℤ}
    (h0 : 0 ≤ idx) (hT : idx < (T : ℤ)) :
    resolveIndex T idx = some idx.toNat := by
  simp [resolveIndex, h0, hT]

/-- A negative window index in `[-T, 0)` resolves by counting from the end. -/
theorem resolveIndex_of_neg {T : ℕ} {idx : ℤ}
    (h0 : -(T : ℤ) ≤ idx) (hT : idx < 0) :
    resolveIndex T idx = some (idx + (T : ℤ)).toNat := by
  have : ¬ (0 ≤ idx ∧ idx < (T : ℤ)) := by omega
  simp [resolveIndex, this, h0, hT]

/-! ### Lemmas about the flattened window-index array `ptl` -/

theorem windowIndices_length {k : ℤ} {l : ℕ} :
    (windowIndices k l).length = 2 * l := by
  rw [windowIndices, List.length_map, List.length_range]

theorem windowIndices_getD {k : ℤ} {l o : ℕ} (ho : o < 2 * l) :
    (windowIndices k l).getD o 0 = k - (l : ℤ) + (o : ℤ) := by
  have hlen : o < (windowIndices k l).length := by
    rw [windowIndices_length]; exact ho
  rw [List.getD_eq_getElem _ _ hlen]
  simp only [windowIndices, List.getElem_map, List.getElem_range]

theorem windowIndices_mem {k x : ℤ} {l : ℕ} (hx : x ∈ windowIndices k l) :
    ∃ o : ℕ, o < 2 * l ∧ x = k - (l : ℤ) + (o : ℤ) := by
  rw [windowIndices] at hx
  obtain ⟨o, ho, rfl⟩ := List.mem_map.mp hx
  exact ⟨o, List.mem_range.mp ho, rfl⟩

theorem flatMapWindow_length {l : ℕ} (firings : List ℤ) :
    (firings.flatMap (fun k => windowIndices k l)).length
      = firings.length * (2 * l) := by
  induction firings with
  | nil => simp
  | cons k rest ih =>
    simp [List.flatMap_cons, ih, windowIndices_length, Nat.succ_mul, Nat.add_comm]

theorem flatMapWindow_getD {l : ℕ} :
    ∀ (firings : List ℤ) (j o : ℕ), j < firings.length → o < 2 * l →
      (firings.flatMap (fun k => windowIndices k l)).getD (j * (2 * l) + o) 0
        = firings.getD j 0 - (l : ℤ) + (o : ℤ) := by
  intro firings
  induction firings with
  | nil => intro j o hj _; simp at hj
  | cons k rest ih =>
    intro j o hj ho
    rw [List.flatMap_cons]
    cases j with
    | zero =>
      rw [Nat.zero_mul, Nat.zero_add,
        List.getD_append _ _ _ _ (by rw [windowIndices_length]; exact ho)]
      simpa using windowIndices_getD ho
    | succ j =>
      rw [List.getD_append_right _ _ _ _
        (by rw [windowIndices_length]; calc
              2 * l ≤ (j + 1) * (2 * l) := by
                calc 2 * l = 1 * (2 * l) := by ring
                _ ≤ (j + 1) * (2 * l) := Nat.mul_le_mul_right _ (by omega)
              _ ≤ (j + 1) * (2 * l) + o := Nat.le_add_right _ _)]
      rw [windowIndices_length]
      have harith : (j + 1) * (2 * l) + o - 2 * l = j * (2 * l) + o := by
        have : (j + 1) * (2 * l) = j * (2 * l) + 2 * l := by ring
        omega
      rw [harith]
      simpa using ih j o (by simpa using hj) ho

theorem flatMapWindow_mem {l : ℕ} {firings : List ℤ} {x : ℤ}
    (hx : x ∈ firings.flatMap (fun k => windowIndices k l)) :
    ∃ k ∈ firings, ∃ o : ℕ, o < 2 * l ∧ x = k - (l : ℤ) + (o : ℤ) := by
  simp only [List.mem_flatMap] at hx
  obtain ⟨k, hk, hxk⟩ := hx
  obtain ⟨o, ho, rfl⟩ := windowIndices_mem hxk
  exact ⟨k, hk, o, ho, rfl⟩

/-! ### Lemmas about the per-unit tile / repeat sequences -/

theorem tileSeq_length {n w : ℕ} (xs : List ℕ) (hxs : xs.length = w) :
    (List.flatten (List.replicate n xs)).length = n * w := by
  induction n with
  | zero => simp
  | succ n ih =>
    rw [List.replicate_succ, List.flatten_cons, List.length_append, ih, hxs,
      Nat.succ_mul, Nat.add_comm]

theorem repeatSeq_length {n w : ℕ} :
    (List.flatten ((List.range n).map (fun j => List.replicate w j))).length
      = n * w := by
  induction n with
  | zero => simp
  | succ n ih =>
    rw [List.range_succ, List.map_append, List.flatten_append, List.length_append,
      ih, Nat.succ_mul]
    simp

theorem repeatSeq_mem {n w x : ℕ}
    (hx : x ∈ List.flatten ((List.range n).map (fun j => List.replicate w j))) :
    x < n := by
  rw [List.mem_flatten] at hx
  obtain ⟨lst, hlst, hxl⟩ := hx
  rw [List.mem_map] at hlst
  obtain ⟨j, hj, rfl⟩ := hlst
  have hxj := List.eq_of_mem_replicate hxl
  subst hxj
  exact List.mem_range.mp hj

theorem repeatSeq_count {n w v : ℕ} :
    (List.flatten ((List.range n).map (fun j => List.replicate w j))).count v
      = if v < n then w else 0 := by
  induction n with
  | zero => simp
  | succ n ih =>
    rw [List.range_succ, List.map_append, List.flatten_append, List.count_append,
      ih]
    simp only [List.map_cons, List.map_nil, List.flatten_cons, List.flatten_nil,
      List.append_nil, List.count_replicate]
    rcases Nat.lt_trichotomy v n with h | h | h
    · have h1 : v < n + 1 := by omega
      have h2 : ¬ (n == v) = true := by simp; omega
      simp [h, h1, h2]
    · subst h
      simp
    · have h1 : ¬ v < n := by omega
      have h2 : ¬ v < n + 1 := by omega
      have h3 : ¬ (n == v) = true := by simp; omega
      simp [h1, h2, h3]

theorem repeatSeq_sorted {n w : ℕ} :
    List.Sorted (· ≤ ·)
      (List.flatten ((List.range n).map (fun j => List.replicate w j))) := by
  induction n with
  | zero => simp [List.Sorted]
  | succ n ih =>
    rw [List.range_succ, List.map_append, List.flatten_append]
    simp only [List.map_cons, List.map_nil, List.flatten_cons, List.flatten_nil,
      List.append_nil]
    show List.Pairwise (· ≤ ·) _
    rw [List.pairwise_append]
    refine ⟨ih, by simp, ?_⟩
    intro x hx y hy
    have hxn := repeatSeq_mem hx
    have hyn := List.eq_of_mem_replicate hy
    omega

/-! ### Lemmas about `muapUnit` -/

theorem muapUnit_eq {raw : List (List ℚ)} {firings : List ℤ} {l : ℕ} :
    muapUnit raw firings l =
      match resolveAll (numSamples raw)
          (firings.flatMap (fun k => windowIndices k l)) with
      | none => none
      | some cols =>
        some
          { sample :=
              List.flatten (List.replicate firings.length (List.range (2 * l)))
            signal := cols.map (chanMean raw)
            peak := List.flatten ((List.range firings.length).map
              (fun j => List.replicate (2 * l) j)) } := rfl

theorem muapUnit_some_elim {raw : List (List ℚ)} {firings : List ℤ} {l : ℕ}
    {r : ShapeRecord} (h : muapUnit raw firings l = some r) :
    r.sample = List.flatten (List.replicate firings.length (List.range (2 * l)))
    ∧ r.peak = List.flatten ((List.range firings.length).map
        (fun j => List.replicate (2 * l) j))
    ∧ ∃ cols, resolveAll (numSamples raw)
          (firings.flatMap (fun k => windowIndices k l)) = some cols ∧
        r.signal = cols.map (chanMean raw) := by
  rw [muapUnit_eq] at h
  cases hra : resolveAll (numSamples raw)
      (firings.flatMap (fun k => windowIndices k l)) with
  | none => rw [hra] at h; exact absurd h (by simp)
  | some cols =>
    rw [hra] at h
    simp only [Option.some.injEq] at h
    subst h
    exact ⟨rfl, rfl, cols, rfl, rfl⟩

theorem muapUnit_isSome {raw : List (List ℚ)} {firings : List ℤ} {l : ℕ}
    (h : ∀ k ∈ firings, ∀ o : ℕ, o < 2 * l →
      (resolveIndex (numSamples raw) (k - (l : ℤ) + (o : ℤ))).isSome) :
    ∃ r, muapUnit raw firings l = some r := by
  have hall : ∀ x ∈ firings.flatMap (fun k => windowIndices k l),
      (resolveIndex (numSamples raw) x).isSome := by
    intro x hx
    obtain ⟨k, hk, o, ho, rfl⟩ := flatMapWindow_mem hx
    exact h k hk o ho
  obtain ⟨ys, hys⟩ := resolveAll_isSome hall
  exact ⟨{ sample :=
             List.flatten (List.replicate firings.length (List.range (2 * l)))
           signal := ys.map (chanMean raw)
           peak := List.flatten ((List.range firings.length).map
             (fun j => List.replicate (2 * l) j)) },
         by rw [muapUnit_eq, hys]⟩

theorem muapUnit_signal_getD {raw : List (List ℚ)} {firings : List ℤ}
    {l : ℕ} {r : ShapeRecord} {j o : ℕ}
    (h : muapUnit raw firings l = some r)
    (hj : j < firings.length) (ho : o < 2 * l) :
    ∃ s : ℕ,
      resolveIndex (numSamples raw) (firings.getD j 0 - (l : ℤ) + (o : ℤ))
        = some s ∧
      r.signal.getD (j * (2 * l) + o) 0 = chanMean raw s := by
  obtain ⟨-, -, cols, hcols, hsig⟩ := muapUnit_some_elim h
  have hidx : j * (2 * l) + o
      < (firings.flatMap (fun k => windowIndices k l)).length := by
    rw [flatMapWindow_length]
    have h1 : (j + 1) * (2 * l) ≤ firings.length * (2 * l) :=
      Nat.mul_le_mul_right _ (by omega)
    have h2 : (j + 1) * (2 * l) = j * (2 * l) + 2 * l := by ring
    omega
  refine ⟨cols.getD (j * (2 * l) + o) 0, ?_, ?_⟩
  · have hr := resolveAll_getD hcols hidx
    rwa [flatMapWindow_getD firings j o hj ho] at hr
  · have hlen : j * (2 * l) + o < cols.length := by
      rw [resolveAll_length hcols]; exact hidx
    rw [hsig, List.getD_eq_getElem _ _ (by rw [List.length_map]; exact hlen),
      List.getElem_map, List.getD_eq_getElem _ _ hlen]

/-! ### Lemmas about the unit loop of `muap_dict` -/

theorem muapLoop_snd (raw : List (List ℚ)) (l : ℕ) :
    ∀ (i : ℕ) (pt : List (List ℤ)), (muapLoop raw l i pt).2 = pt := by
  intro i pt
  induction pt generalizing i with
  | nil => rfl
  | cons firings rest ih =>
    show (muapLoop raw l i (firings :: rest)).2 = _
    rw [muapLoop]
    cases hmu : muapUnit raw (squeeze firings) l with
    | none => simp [squeeze]
    | some r =>
      cases hloop : muapLoop raw l (i + 1) rest with
      | mk res rest2 =>
        cases res with
        | ok entries =>
          have := ih (i + 1)
          rw [hloop] at this
          simp only at this
          simp [squeeze, this]
        | error e =>
          have := ih (i + 1)
          rw [hloop] at this
          simp only at this
          simp [squeeze, this]

theorem muapLoop_ok_elim (raw : List (List ℚ)) (l : ℕ) :
    ∀ (pt : List (List ℤ)) (i : ℕ) (entries : List (String × ShapeRecord)),
      (muapLoop raw l i pt).1 = Except.ok entries →
      entries.length = pt.length ∧
      ∀ j : ℕ, j < pt.length →
        ∃ r, muapUnit raw (pt.getD j []) l = some r ∧
          entries.getD j emptyEntry = ("mu_" ++ toString (i + j), r) := by
  intro pt
  induction pt with
  | nil =>
    intro i entries h
    simp only [muapLoop] at h
    obtain rfl : ([] : List (String × ShapeRecord)) = entries := by
      simpa using h
    exact ⟨rfl, fun j hj => absurd hj (by simp)⟩
  | cons firings rest ih =>
    intro i entries h
    rw [muapLoop] at h
    cases hmu : muapUnit raw (squeeze firings) l with
    | none => rw [hmu] at h; simp at h
    | some r =>
      rw [hmu] at h
      cases hloop : muapLoop raw l (i + 1) rest with
      | mk res rest2 =>
        rw [hloop] at h
        cases res with
        | error e => simp at h
        | ok es =>
          simp only [Except.ok.injEq] at h
          obtain ⟨hlen, hget⟩ := ih (i + 1) es (by rw [hloop])
          subst h
          constructor
          · simp [hlen]
          · intro j hj
            cases j with
            | zero =>
              refine ⟨r, ?_, by simp⟩
              simpa [squeeze] using hmu
            | succ j =>
              obtain ⟨r2, hr2, hgj⟩ := hget j (by simpa using hj)
              refine ⟨r2, by simpa using hr2, ?_⟩
              have harith : i + (j + 1) = (i + 1) + j := by omega
              simp only [List.getD_cons_succ, harith]
              exact hgj

theorem muapLoop_isOk (raw : List (List ℚ)) (l : ℕ) :
    ∀ (pt : List (List ℤ)) (i : ℕ),
      (∀ f ∈ pt, ∃ r, muapUnit raw f l = some r) →
      ∃ entries, (muapLoop raw l i pt).1 = Except.ok entries := by
  intro pt
  induction pt with
  | nil => intro i _; exact ⟨[], rfl⟩
  | cons firings rest ih =>
    intro i hall
    obtain ⟨r, hr⟩ := hall firings (by simp)
    obtain ⟨es, hes⟩ := ih (i + 1) (fun f hf => hall f (by simp [hf]))
    refine ⟨("mu_" ++ toString i, r) :: es, ?_⟩
    rw [muapLoop]
    cases hloop : muapLoop raw l (i + 1) rest with
    | mk res rest2 =>
      rw [hloop] at hes
      simp only at hes
      subst hes
      simp [squeeze, hr, hloop]

/-! ### The claims -/

/-- C2: whenever `muap_dict` returns a mapping (rather than raising
`IndexError`), it has exactly one entry per input motor unit, in the same
order, keyed `"mu_<i>"` for 0-based position `i`, and for every unit with
`n` firing events each of the three sequences `sample`, `signal`, `peak` has
length `n * 2 * half_width`. -/
theorem claim_C2 (raw : List (List ℚ)) (pt : List (List ℤ)) (l : ℕ)
    (entries : List (String × ShapeRecord))
    (hok : muap_dict raw pt l = Except.ok entries) :
    entries.length = pt.length ∧
    ∀ i : ℕ, i < pt.length →
      (entries.getD i emptyEntry).1 = "mu_" ++ toString i ∧
      (entries.getD i emptyEntry).2.sample.length
        = (pt.getD i []).length * (2 * l) ∧
      (entries.getD i emptyEntry).2.signal.length
        = (pt.getD i []).length * (2 * l) ∧
      (entries.getD i emptyEntry).2.peak.length
        = (pt.getD i []).length * (2 * l) := by
  obtain ⟨hlen, hget⟩ := muapLoop_ok_elim raw l pt 0 entries hok
  refine ⟨hlen, fun i hi => ?_⟩
  obtain ⟨r, hr, hgi⟩ := hget i hi
  obtain ⟨hsample, hpeak, cols, hcols, hsig⟩ := muapUnit_some_elim hr
  rw [hgi]
  refine ⟨by simp, ?_, ?_, ?_⟩
  · show r.sample.length = _
    rw [hsample, tileSeq_length _ (List.length_range _)]
  · show r.signal.length = _
    rw [hsig, List.length_map, resolveAll_length hcols, flatMapWindow_length]
  · show r.peak.length = _
    rw [hpeak, repeatSeq_length]

/-- Witness for C2 at the concrete example. -/
theorem claim_C2_witness :
    entriesEx.length = ptEx.length ∧
    (entriesEx.getD 0 emptyEntry).1 = "mu_" ++ toString 0 ∧
    (entriesEx.getD 0 emptyEntry).2.sample.length
      = (ptEx.getD 0 []).length * (2 * 1) ∧
    (entriesEx.getD 0 emptyEntry).2.signal.length
      = (ptEx.getD 0 []).length * (2 * 1) ∧
    (entriesEx.getD 0 emptyEntry).2.peak.length
      = (ptEx.getD 0 []).length * (2 * 1) :=
  have h := claim_C2 rawEx ptEx 1 entriesEx (by rfl)
  ⟨h.1, (h.2 0 (by decide)).1, (h.2 0 (by decide)).2.1,
    (h.2 0 (by decide)).2.2.1, (h.2 0 (by decide)).2.2.2⟩

/-- C3: for every motor unit with `n` firing events (in a successful
`muap_dict` call), the `sample` sequence of its shape record is the sequence
`0, 1, ..., 2*half_width - 1` repeated `n` times, in order. -/
theorem claim_C3 (raw : List (List ℚ)) (pt : List (List ℤ)) (l i : ℕ)
    (entries : List (String × ShapeRecord))
    (hok : muap_dict raw pt l = Except.ok entries) (hi : i < pt.length) :
    (entries.getD i emptyEntry).2.sample
      = List.flatten
          (List.replicate (pt.getD i []).length (List.range (2 * l))) := by
  obtain ⟨-, hget⟩ := muapLoop_ok_elim raw l pt 0 entries hok
  obtain ⟨r, hr, hgi⟩ := hget i hi
  rw [hgi]
  exact (muapUnit_some_elim hr).1

/-- Witness for C3 at the concrete example. -/
theorem claim_C3_witness :
    (entriesEx.getD 0 emptyEntry).2.sample
      = List.flatten
          (List.replicate (ptEx.getD 0 []).length (List.range (2 * 1))) :=
  claim_C3 rawEx ptEx 1 0 entriesEx (by rfl) (by decide)

/-- C4: for every motor unit with `n` firing events (in a successful
`muap_dict` call), the `peak` sequence is non-decreasing and each event
index `j < n` appears in it exactly `2*half_width` times. -/
theorem claim_C4 (raw : List (List ℚ)) (pt : List (List ℤ)) (l i : ℕ)
    (entries : List (String × ShapeRecord))
    (hok : muap_dict raw pt l = Except.ok entries) (hi : i < pt.length) :
    List.Sorted (· ≤ ·) (entries.getD i emptyEntry).2.peak ∧
    ∀ j : ℕ, j < (pt.getD i []).length →
      (entries.getD i emptyEntry).2.peak.count j = 2 * l := by
  obtain ⟨-, hget⟩ := muapLoop_ok_elim raw l pt 0 entries hok
  obtain ⟨r, hr, hgi⟩ := hget i hi
  rw [hgi]
  obtain ⟨-, hpeak, -⟩ := muapUnit_some_elim hr
  constructor
  · show List.Sorted _ r.peak
    rw [hpeak]
    exact repeatSeq_sorted
  · intro j hj
    show r.peak.count j = 2 * l
    rw [hpeak, repeatSeq_count, if_pos hj]

/-- Witness for C4 at the concrete example. -/
theorem claim_C4_witness :
    List.Sorted (· ≤ ·) (entriesEx.getD 0 emptyEntry).2.peak ∧
    (entriesEx.getD 0 emptyEntry).2.peak.count 1 = 2 * 1 :=
  have h := claim_C4 rawEx ptEx 1 0 entriesEx (by rfl) (by decide)
  ⟨h.1, h.2 1 (by decide)⟩

/-- C9: calling the extractor twice in succession with the same arguments
(nothing else mutating them in between) yields identical results: the first
call's only observable mutation of `pt` is the in-place `squeeze`, and the
second call, run on the post-call state, returns the same output (and the
same final state). -/
theorem claim_C9 (raw : List (List ℚ)) (pt : List (List ℤ)) (l : ℕ) :
    muap_dictMut raw (muap_dictMut raw pt l).2 l = muap_dictMut raw pt l := by
  show muapLoop (flatten_signal raw) l 0 (muapLoop (flatten_signal raw) l 0 pt).2
      = muapLoop (flatten_signal raw) l 0 pt
  rw [muapLoop_snd]

/-- C1: in a successful `muap_dict` call, for a motor unit whose firing
indices all lie in `[half_width, T - half_width]`, the `signal` value at
position `j * 2 * half_width + o` of that unit's record is the mean over the
channels of the raw signal at sample `firing_index[j] - half_width + o`. -/
theorem claim_C1 (raw : List (List ℚ)) (pt : List (List ℤ)) (l i j o : ℕ)
    (entries : List (String × ShapeRecord))
    (hok : muap_dict raw pt l = Except.ok entries)
    (hi : i < pt.length)
    (hrange : ∀ k ∈ pt.getD i [],
      (l : ℤ) ≤ k ∧ k + (l : ℤ) ≤ (numSamples raw : ℤ))
    (hj : j < (pt.getD i []).length) (ho : o < 2 * l) :
    (entries.getD i emptyEntry).2.signal.getD (j * (2 * l) + o) 0
      = chanMean raw ((pt.getD i []).getD j 0 - (l : ℤ) + (o : ℤ)).toNat := by
  obtain ⟨-, hget⟩ := muapLoop_ok_elim raw l pt 0 entries hok
  obtain ⟨r, hr, hgi⟩ := hget i hi
  rw [hgi]
  obtain ⟨s, hres, hval⟩ := muapUnit_signal_getD hr hj ho
  have hkmem : (pt.getD i []).getD j 0 ∈ pt.getD i [] := by
    rw [List.getD_eq_getElem _ _ hj]
    exact List.getElem_mem hj
  obtain ⟨hlk, hkT⟩ := hrange _ hkmem
  have h0 : 0 ≤ (pt.getD i []).getD j 0 - (l : ℤ) + (o : ℤ) := by omega
  have hT : (pt.getD i []).getD j 0 - (l : ℤ) + (o : ℤ)
      < (numSamples raw : ℤ) := by omega
  rw [resolveIndex_of_nonneg h0 hT] at hres
  have hs : s = ((pt.getD i []).getD j 0 - (l : ℤ) + (o : ℤ)).toNat := by
    exact (Option.some.injEq _ _ ▸ hres).symm
  show r.signal.getD (j * (2 * l) + o) 0 = _
  rw [hval, hs]

/-- Witness for C1 at the concrete example: event `j = 1` fires at sample 2,
so window offset `o = 0` reads sample `2 - 1 + 0 = 1`. -/
theorem claim_C1_witness :
    (entriesEx.getD 0 emptyEntry).2.signal.getD 2 0 = chanMean rawEx 1 :=
  claim_C1 rawEx ptEx 1 0 1 0 entriesEx (by rfl) (by decide) (by decide)
    (by decide) (by decide)

/-- C10: if every firing index `k` of every unit satisfies `0 ≤ k` and
`k + half_width ≤ T`, `muap_dict` does not raise even when some `k` is
smaller than `half_width`: the negative window positions are resolved by
numpy as indices counted from the end of the time axis, so those `signal`
values are channel means of samples from the far end of the recording. -/
theorem claim_C10 (raw : List (List ℚ)) (pt : List (List ℤ)) (l i j o : ℕ)
    (hall : ∀ f ∈ pt, ∀ k ∈ f, 0 ≤ k ∧ k + (l : ℤ) ≤ (numSamples raw : ℤ))
    (hi : i < pt.length) (hj : j < (pt.getD i []).length) (ho : o < 2 * l)
    (hneg : (pt.getD i []).getD j 0 - (l : ℤ) + (o : ℤ) < 0) :
    ∃ entries, muap_dict raw pt l = Except.ok entries ∧
      (entries.getD i emptyEntry).2.signal.getD (j * (2 * l) + o) 0
        = chanMean raw
            ((numSamples raw : ℤ)
              + ((pt.getD i []).getD j 0 - (l : ℤ) + (o : ℤ))).toNat := by
  have hok : ∀ f ∈ pt, ∃ r, muapUnit raw f l = some r := by
    intro f hf
    apply muapUnit_isSome
    intro k hk o2 ho2
    obtain ⟨hk0, hkT⟩ := hall f hf k hk
    by_cases hcase : 0 ≤ k - (l : ℤ) + (o2 : ℤ)
    · rw [resolveIndex_of_nonneg hcase (by omega)]
      rfl
    · push_neg at hcase
      rw [resolveIndex_of_neg (by omega) hcase]
      rfl
  obtain ⟨entries, hentries⟩ := muapLoop_isOk raw l pt 0 hok
  refine ⟨entries, hentries, ?_⟩
  obtain ⟨-, hget⟩ := muapLoop_ok_elim raw l pt 0 entries hentries
  obtain ⟨r, hr, hgi⟩ := hget i hi
  rw [hgi]
  obtain ⟨s, hres, hval⟩ := muapUnit_signal_getD hr hj ho
  have hkmem : (pt.getD i []).getD j 0 ∈ pt.getD i [] := by
    rw [List.getD_eq_getElem _ _ hj]
    exact List.getElem_mem hj
  have hptmem : pt.getD i [] ∈ pt := by
    rw [List.getD_eq_getElem _ _ hi]
    exact List.getElem_mem hi
  obtain ⟨hk0, hkT⟩ := hall _ hptmem _ hkmem
  rw [resolveIndex_of_neg (by omega) hneg] at hres
  have hs : s = ((pt.getD i []).getD j 0 - (l : ℤ) + (o : ℤ)
      + (numSamples raw : ℤ)).toNat := by
    exact (Option.some.injEq _ _ ▸ hres).symm
  have hcomm : (pt.getD i []).getD j 0 - (l : ℤ) + (o : ℤ)
      + (numSamples raw : ℤ)
      = (numSamples raw : ℤ)
        + ((pt.getD i []).getD j 0 - (l : ℤ) + (o : ℤ)) := by ring
  show r.signal.getD (j * (2 * l) + o) 0 = _
  rw [hval, hs, hcomm]

/-- Witness for C10: firing at sample 1 with `half_width = 2` in a 4-sample
signal; offset 0 reads the wrapped index `4 + (1 - 2 + 0) = 3`. -/
theorem claim_C10_witness :
    ∃ entries, muap_dict rawEx2 ptEx2 2 = Except.ok entries ∧
      (entries.getD 0 emptyEntry).2.signal.getD 0 0 = chanMean rawEx2 3 :=
  claim_C10 rawEx2 ptEx2 2 0 0 0 (by decide) (by decide) (by decide)
    (by decide) (by decide)

/-- C5, evaluated at the failing input: the firing index `k = 1` violates
`k - half_width >= 0` for `half_width = 2`, yet `muap_dict` does not raise an
index error — numpy resolves the negative window position `-1` as the last
sample, and a record built from wrapped reads is returned (its first
`signal` value is the channel mean of sample 3, the far end). -/
theorem claim_C5_eval :
    muap_dict rawEx2 ptEx2 2
      = Except.ok [("mu_0",
          { sample := [0, 1, 2, 3]
            signal := [chanMean rawEx2 3, chanMean rawEx2 0, chanMean rawEx2 1,
                       chanMean rawEx2 2]
            peak := [0, 0, 0, 0] })] := by rfl

/-- C6, evaluated at the failing input: a table with 4 events (8 rows,
`half_width = 1`) at `items_per_page = 3`, `page = 2`.  The code computes
`last_page = 8 // 2 // 3 + (147 % 3 > 0) = 1` — the remainder term comes
from the hardcoded literal `147`, not from the table — and so refuses the
valid page 2 with the advisory naming page 1; the correctly computed last
page, derived from the record itself, is 2 (second conjunct). -/
theorem claim_C6_eval :
    muap_plot (some 1) [("mu_0", recEx8)] 0 2 3
      = Except.ok (PlotOutput.message "Last page is page 1.") ∧
    recEx8.sample.length / (1 * 2) / 3
      + (if recEx8.sample.length / (1 * 2) % 3 > 0 then 1 else 0) = 2 :=
  ⟨by rfl, by rfl⟩

/-- C7, evaluated at the failing input: with `items_per_page = 13` the
renderer never returns the max-per-page advisory — the `row_index` line
reads the unbound module name `l` before the `count > 12` check, so the call
raises `NameError` instead of returning the message. -/
theorem claim_C7_eval :
    muap_plot none [("mu_0", recEx8)] 0 1 13 = Except.error "NameError" := by
  rfl

/-- C8, counterexample to the claim as stated: an invocation whose
shape-table lookup fails raises `KeyError` at the `mu_df` line, before the
name `l` is ever read — so not every invocation fails with the
undefined-name error. -/
theorem claim_C8_counterexample :
    muap_plot none [] 0 1 12 = Except.error "KeyError" ∧
    muap_plot none [] 0 1 12 ≠ Except.error "NameError" := by
  constructor
  · rfl
  · intro h
    rw [show muap_plot none [] 0 1 12 = Except.error "KeyError" from rfl] at h
    simp only [Except.error.injEq] at h
    exact absurd h (by decide)

/-- C8 (amended): with the module name `l` unbound, every invocation of
`muap_plot` whose shape-table lookup succeeds and whose record's three
columns have equal length fails with `NameError` before any validation
check; and every invocation whatsoever raises some exception — none returns
a chart or an advisory message. -/
theorem claim_C8 (shape_dict : List (String × ShapeRecord))
    (mu_index page count : ℕ) :
    (∀ r : ShapeRecord,
      List.lookup ("mu_" ++ toString mu_index) shape_dict = some r →
      r.signal.length = r.sample.length →
      r.peak.length = r.sample.length →
      muap_plot none shape_dict mu_index page count
        = Except.error "NameError") ∧
    ∃ e : String, muap_plot none shape_dict mu_index page count
        = Except.error e := by
  constructor
  · intro r hlook hsig hpeak
    simp [muap_plot, hlook, hsig, hpeak]
  · cases hlook : List.lookup ("mu_" ++ toString mu_index) shape_dict with
    | none => exact ⟨"KeyError", by simp [muap_plot, hlook]⟩
    | some r =>
      by_cases hrag :
          r.signal.length = r.sample.length ∧ r.peak.length = r.sample.length
      · exact ⟨"NameError", by simp [muap_plot, hlook, hrag.1, hrag.2]⟩
      · exact ⟨"ValueError", by simp [muap_plot, hlook, hrag]⟩

/-- Witness for the amended C8 at a concrete well-formed table. -/
theorem claim_C8_witness :
    muap_plot none [("mu_0", recEx8)] 0 1 12 = Except.error "NameError" :=
  (claim_C8 [("mu_0", recEx8)] 0 1 12).1 recEx8 (by rfl) (by rfl) (by rfl)
